import Mathlib

/-!
SQL value encoder of `types/append.go`

A shallow embedding of the encoder functions of package `types`
(`Append`, `AppendNull`, `AppendString`, `appendBytes`,
`AppendStringStringMap`, `AppendField`, `appendAppender`, ...) together with
theorems about them.

Conventions of the embedding.

* A Go `[]byte` buffer and a Go `string` are both lists of bytes; a byte is a
  `Fin 256`.  The `nil` slice returned by `AppendNull` is the empty list: as a
  buffer it has length zero and appending to it behaves like appending to an
  empty slice.  Where the source tests a slice or a map against `nil`
  (`appendBytes`, `AppendStringStringMap`) the argument is an `Option`.
* The quote flag is a Go `int`; it is only ever compared with constants, so
  it is an `Int` here.
* Slices are values, with one exception: the `AppendValue` method of a
  self-encoding value receives the caller's slice and may write into its
  bytes, and `appendAppender` goes on using that slice; the writes are part of
  the outcome of the method (`AppendValueResult.writes`).
-/

namespace Types

/-- One byte of a Go string or byte slice. -/
abbrev Byte := Fin 256

/-- The bytes of a buffer, string or byte slice. -/
abbrev Bytes := List Byte

/-- The NUL byte, written '\000' in the source. -/
def NUL : Byte := 0
/-- The double quote byte. -/
def DQUOTE : Byte := 34
/-- The single quote byte. -/
def SQUOTE : Byte := 39
/-- The star byte. -/
def STAR : Byte := 42
/-- The comma byte. -/
def COMMA : Byte := 44
/-- The dot byte. -/
def DOT : Byte := 46
/-- The backslash byte. -/
def BACKSLASH : Byte := 92

/-- The four bytes of the text NULL. -/
def strNULL : Bytes := [78, 85, 76, 76]
/-- The four bytes of the text TRUE. -/
def strTRUE : Bytes := [84, 82, 85, 69]
/-- The five bytes of the text FALSE. -/
def strFALSE : Bytes := [70, 65, 76, 83, 69]
/-- The three bytes of the text that opens an error marker: question mark,
exclamation mark, opening parenthesis. -/
def strErrOpen : Bytes := [63, 33, 40]
/-- The closing parenthesis byte. -/
def RPAREN : Byte := 41
/-- The two bytes backslash, x that start a hex literal. -/
def strHexPrefix : Bytes := [92, 120]
/-- The two bytes of the arrow between a key and a value. -/
def strArrow : Bytes := [61, 62]

/-- `AppendNull` (append.go 65-71): with quote 1 the text NULL is appended to
the buffer, with any other quote value the function returns the nil slice. -/
def AppendNull (b : Bytes) (quote : Int) : Bytes :=
  if quote = 1 then b ++ strNULL else []

/-- `appendBool` (append.go 73-78). -/
def appendBool (dst : Bytes) (v : Bool) : Bytes :=
  if v then dst ++ strTRUE else dst ++ strFALSE

/-- `appendError` (append.go 58-63); the argument is the text returned by
the error's `Error()` method. -/
def appendError (b : Bytes) (err : Bytes) : Bytes :=
  ((b ++ strErrOpen) ++ err) ++ [RPAREN]

/-- The body of the `for` loop of `AppendString` (append.go 91-117), run over
the bytes of the string that are still to be read. -/
def appendStringLoop (quote : Int) : Bytes → Bytes → Bytes
  | [], b => b
  | c :: s, b =>
    if c = NUL then appendStringLoop quote s b
    else if quote ≥ 1 ∧ c = SQUOTE then appendStringLoop quote s (b ++ [SQUOTE, SQUOTE])
    else if quote = 2 ∧ c = DQUOTE then appendStringLoop quote s (b ++ [BACKSLASH, DQUOTE])
    else if quote = 2 ∧ c = BACKSLASH then
      appendStringLoop quote s (b ++ [BACKSLASH, BACKSLASH])
    else appendStringLoop quote s (b ++ [c])

/-- `AppendString` (append.go 84-126): opening wrapper, the loop, closing
wrapper.  The opening test is `quote == 2`, the closing test `quote >= 2`. -/
def AppendString (b : Bytes) (s : Bytes) (quote : Int) : Bytes :=
  let b0 := if quote = 2 then b ++ [DQUOTE] else if quote = 1 then b ++ [SQUOTE] else b
  let b1 := appendStringLoop quote s b0
  if quote ≥ 2 then b1 ++ [DQUOTE] else if quote = 1 then b1 ++ [SQUOTE] else b1

/-- The table "0123456789abcdef" of `encoding/hex`. -/
def hextable : Bytes :=
  [48, 49, 50, 51, 52, 53, 54, 55, 56, 57, 97, 98, 99, 100, 101, 102]

/-- The hex digit for a nibble: `hextable[n]`. -/
def hexDigit (n : Nat) : Byte := hextable.getD n 0

/-- `hex.Encode` of the standard library: every byte `v` becomes
`hextable[v>>4]`, `hextable[v&0x0f]`. -/
def hexEncode : Bytes → Bytes
  | [] => []
  | v :: rest => hexDigit (v.val / 16) :: hexDigit (v.val % 16) :: hexEncode rest

/-- `appendBytes` (append.go 128-147); `none` is the nil slice. -/
def appendBytes (b : Bytes) (bytes : Option Bytes) (quote : Int) : Bytes :=
  match bytes with
  | none => AppendNull b quote
  | some x =>
    let b1 := if quote = 1 then b ++ [SQUOTE] else b
    let tmp := hexEncode x
    let b2 := b1 ++ strHexPrefix
    let b3 := b2 ++ tmp
    if quote = 1 then b3 ++ [SQUOTE] else b3

/-- The `range` loop of `AppendStringStringMap` (append.go 158-163) over the
entries of the map in the order in which the iteration visits them. -/
def appendMapLoop : List (Bytes × Bytes) → Bytes → Bytes
  | [], b => b
  | (key, value) :: m, b =>
    let b1 := AppendString b key 2
    let b2 := b1 ++ strArrow
    let b3 := AppendString b2 value 2
    appendMapLoop m (b3 ++ [COMMA])

/-- `AppendStringStringMap` (append.go 149-173).  `none` is the nil map; a
present map is given by its entries in iteration order, so `len(m)` is the
length of that list. -/
def AppendStringStringMap (b : Bytes) (m : Option (List (Bytes × Bytes)))
    (quote : Int) : Bytes :=
  match m with
  | none => AppendNull b quote
  | some es =>
    let b1 := if quote = 1 then b ++ [SQUOTE] else b
    let b2 := appendMapLoop es b1
    let b3 := if es.length > 0 then b2.take (b2.length - 1) else b2
    if quote = 1 then b3 ++ [SQUOTE] else b3

/-- The digit byte for a value below ten. -/
def decDigit (d : Nat) : Byte := Fin.ofNat (48 + d)

/-- The base-10 digits of a natural number as `strconv` formats them: most
significant digit first, the single digit 0 for zero. -/
def formatDecimal (u : Nat) : Bytes :=
  if u = 0 then [decDigit 0] else ((Nat.digits 10 u).reverse).map decDigit

/-- `strconv.AppendUint(b, u, 10)` of the standard library. -/
def AppendUint (b : Bytes) (u : Nat) : Bytes := b ++ formatDecimal u

/-- `strconv.AppendInt(b, i, 10)` of the standard library: a minus sign for a
negative number, then the digits of its magnitude. -/
def AppendInt (b : Bytes) (i : Int) : Bytes :=
  if i < 0 then (b ++ [45]) ++ formatDecimal i.natAbs else b ++ formatDecimal i.toNat

/-- Modelled from the spec: the byte parser of package `internal/parser`,
which `appendField` reads its path from and whose source is not at hand.  The
spec describes it as a cursor with lookahead into the raw path; the parser is
represented by the bytes of the path that are still unread. -/
structure Parser where
  /-- The unread part of the path. -/
  b : Bytes

/-- Modelled from the spec: `parser.NewString`, a parser positioned at the
start of the path. -/
def Parser.NewString (field : Bytes) : Parser := ⟨field⟩

/-- Modelled from the spec: `Parser.Valid`, whether unread input remains. -/
def Parser.Valid (p : Parser) : Bool := !p.b.isEmpty

/-- Modelled from the spec: `Parser.Read`, the next byte together with the
parser advanced past it (byte 0 and no move at the end of the input). -/
def Parser.Read (p : Parser) : Byte × Parser :=
  match p.b with
  | [] => (0, p)
  | c :: rest => (c, ⟨rest⟩)

/-- Modelled from the spec: `Parser.Skip c`, which advances past the next
byte when that byte is `c` and reports whether it did. -/
def Parser.Skip (p : Parser) (c : Byte) : Bool × Parser :=
  match p.b with
  | [] => (false, p)
  | d :: rest => if d = c then (true, ⟨rest⟩) else (false, p)

/-- The `for p.Valid()` loop of `appendField` (append.go 192-231) with an
iteration bound: every iteration reads at least one byte, so a bound above the
number of unread bytes is never reached.  Leaving the loop by `p.Valid()`
being false runs the closing test of lines 228-230. -/
def appendFieldLoop (quote : Int) : Nat → Parser → Bool → Bytes → Bytes
  | 0, _, _, b => b
  | fuel + 1, p, quoted, b =>
    if p.Valid then
      let c := p.Read.1
      let p1 := p.Read.2
      if c = STAR ∧ quoted = false then
        appendFieldLoop quote fuel p1 quoted (b ++ [STAR])
      else if c = DOT then
        let closes : Bool := quoted && decide (quote = 1)
        let b1 := if closes then b ++ [DQUOTE] else b
        let quoted1 := if closes then false else quoted
        let b2 := b1 ++ [DOT]
        let skipped := (p1.Skip STAR).1
        let p2 := (p1.Skip STAR).2
        if skipped then appendFieldLoop quote fuel p2 quoted1 (b2 ++ [STAR])
        else if quote = 1 then appendFieldLoop quote fuel p2 true (b2 ++ [DQUOTE])
        else appendFieldLoop quote fuel p2 quoted1 b2
      else
        let opens : Bool := !quoted && decide (quote = 1)
        let b1 := if opens then b ++ [DQUOTE] else b
        let quoted1 := if opens then true else quoted
        let b2 := if quote = 1 ∧ c = DQUOTE then b1 ++ [DQUOTE, DQUOTE] else b1 ++ [c]
        appendFieldLoop quote fuel p1 quoted1 b2
    else if quote = 1 ∧ quoted = true then b ++ [DQUOTE]
    else b

/-- `appendField` (append.go 191-232): the loop started unquoted, with a
bound one above the length of the input. -/
def appendField (b : Bytes) (p : Parser) (quote : Int) : Bytes :=
  appendFieldLoop quote (p.b.length + 1) p false b

/-- `AppendField` (append.go 183-185). -/
def AppendField (b : Bytes) (field : Bytes) (quote : Int) : Bytes :=
  appendField b (Parser.NewString field) quote

/-- `AppendFieldBytes` (append.go 187-189). -/
def AppendFieldBytes (b : Bytes) (field : Bytes) (quote : Int) : Bytes :=
  appendField b (Parser.NewString field) quote

/-- The outcome of a call `v.AppendValue(b, quote)` of a self-encoding value:
the buffer and the error it returns, and the writes it made through the slice
it was given into the bytes the caller already had, each an index and the
byte stored there.  The method cannot change the length of the caller's
slice. -/
structure AppendValueResult where
  /-- The returned buffer. -/
  bb : Bytes
  /-- The text of the returned error, `none` for a nil error. -/
  err : Option Bytes
  /-- The stores `b[i] = c` made into the caller's bytes, in order. -/
  writes : List (Nat × Byte)

/-- The bytes of a slice after a sequence of stores `b[i] = c`; a store at an
index at or beyond the length of the slice does not touch its bytes. -/
def applyWrites (b : Bytes) (ws : List (Nat × Byte)) : Bytes :=
  ws.foldl (fun acc w => acc.set w.1 w.2) b

/-- The values that `Append` dispatches on (append.go 14-55), without the
floating point, time and reflection cases.  An integer carries its numeric
value; a byte slice is `none` when it is nil; a `ValueAppender` is its
`AppendValue` method; a `driver.Valuer` is the outcome of its `Value`
method. -/
inductive Value where
  | null
  | bool (v : Bool)
  | int8 (v : Int)
  | int16 (v : Int)
  | int32 (v : Int)
  | int64 (v : Int)
  | int (v : Int)
  | uint8 (v : Nat)
  | uint16 (v : Nat)
  | uint32 (v : Nat)
  | uint64 (v : Nat)
  | uint (v : Nat)
  | string (v : Bytes)
  | bytes (v : Option Bytes)
  | appender (AppendValue : Bytes → Int → AppendValueResult)
  | valuer (value : Value) (err : Option Bytes)

/-- `appendAppender` (append.go 234-240).  The method is called with the
slice `b`; on failure `appendError` is given that same slice, whose bytes are
then as the method left them, and the buffer the method returned is dropped;
on success the returned buffer is the result. -/
def appendAppender (b : Bytes) (v : Bytes → Int → AppendValueResult)
    (quote : Int) : Bytes :=
  let r := v b quote
  match r.err with
  | some err => appendError (applyWrites b r.writes) err
  | none => r.bb

mutual

/-- `Append` (append.go 13-56). -/
def Append (b : Bytes) (v : Value) (quote : Int) : Bytes :=
  match v with
  | .null => AppendNull b quote
  | .bool v => appendBool b v
  | .int8 v => AppendInt b v
  | .int16 v => AppendInt b v
  | .int32 v => AppendInt b v
  | .int64 v => AppendInt b v
  | .int v => AppendInt b v
  | .uint8 v => AppendUint b v
  | .uint16 v => AppendUint b v
  | .uint32 v => AppendUint b v
  | .uint64 v => AppendUint b v
  | .uint v => AppendUint b v
  | .string v => AppendString b v quote
  | .bytes v => appendBytes b v quote
  | .appender v => appendAppender b v quote
  | .valuer value err => appendDriverValuer b value err quote

/-- `appendDriverValuer` (append.go 175-181), given what `v.Value()`
returned. -/
def appendDriverValuer (b : Bytes) (value : Value) (err : Option Bytes)
    (quote : Int) : Bytes :=
  match err with
  | some e => appendError b e
  | none => Append b value quote

end

/-- Re-reading of the body of a SQL string literal: every doubled single
quote becomes one single quote, every other byte is kept. -/
def undoubleQuotes : Bytes → Bytes
  | [] => []
  | [c] => [c]
  | c :: d :: r =>
    if c = SQUOTE ∧ d = SQUOTE then SQUOTE :: undoubleQuotes r
    else c :: undoubleQuotes (d :: r)

/-- Re-parsing of a SQL string literal: the first and the last byte must be
single quotes; they are stripped and the doubled quotes of the body undone. -/
def parseLiteral (out : Bytes) : Option Bytes :=
  match out with
  | [] => none
  | q :: rest =>
    if q = SQUOTE ∧ rest.getLast? = some SQUOTE then some (undoubleQuotes rest.dropLast)
    else none

/-- The value of a hexadecimal digit byte, lower case only. -/
def fromHexChar (c : Byte) : Option Nat :=
  if 48 ≤ c.val ∧ c.val ≤ 57 then some (c.val - 48)
  else if 97 ≤ c.val ∧ c.val ≤ 102 then some (c.val - 97 + 10)
  else none

/-- Decoding of a run of lower-case hex digits, two per byte; it fails on an
odd number of digits or on a byte that is not such a digit. -/
def hexDecode : Bytes → Option Bytes
  | [] => some []
  | [_] => none
  | hi :: lo :: rest =>
    match fromHexChar hi, fromHexChar lo, hexDecode rest with
    | some h, some l, some r => some (Fin.ofNat (h * 16 + l) :: r)
    | _, _, _ => none

/-- Whether a byte is one of the digits 0-9, a-f. -/
def isLowerHex (c : Byte) : Bool :=
  (48 ≤ c.val && c.val ≤ 57) || (97 ≤ c.val && c.val ≤ 102)

/-- The escaped form of one byte under the rules stated for Identifier mode:
nothing for NUL, two single quotes for a single quote, backslash and double
quote for a double quote, two backslashes for a backslash, the byte itself
otherwise. -/
def escapeIdentByte (c : Byte) : Bytes :=
  if c = NUL then []
  else if c = SQUOTE then [SQUOTE, SQUOTE]
  else if c = DQUOTE then [BACKSLASH, DQUOTE]
  else if c = BACKSLASH then [BACKSLASH, BACKSLASH]
  else [c]

/-- One entry of the map literal as the claim words it: the key and the value
each encoded on an empty buffer with quote 2, with the arrow in between. -/
def mapEntry (e : Bytes × Bytes) : Bytes :=
  (AppendString [] e.1 2 ++ strArrow) ++ AppendString [] e.2 2

/-- The entries joined by single commas, no trailing comma. -/
def joinEntries (es : List (Bytes × Bytes)) : Bytes :=
  (List.intersperse [COMMA] (es.map mapEntry)).flatten

/-- Whether a value is one of the built-in variants null, boolean, integer,
text, byte slice. -/
def Value.isBuiltin : Value → Bool
  | .appender _ => false
  | .valuer _ _ => false
  | _ => true

/-- Whether a value is null or a nil byte slice, the two values that
`Append` hands to `AppendNull`. -/
def Value.isAbsent : Value → Bool
  | .null => true
  | .bytes none => true
  | _ => false

/-- The numeric value of an integer variant, `none` for every other value. -/
def Value.intValue : Value → Option Int
  | .int8 v => some v
  | .int16 v => some v
  | .int32 v => some v
  | .int64 v => some v
  | .int v => some v
  | .uint8 v => some (v : Int)
  | .uint16 v => some (v : Int)
  | .uint32 v => some (v : Int)
  | .uint64 v => some (v : Int)
  | .uint v => some (v : Int)
  | _ => none

/-- Whether a byte is one of the decimal digits 0-9. -/
def isDecDigit (c : Byte) : Bool := 48 ≤ c.val && c.val ≤ 57

/-- The number written by a run of decimal digits, most significant first. -/
def parseNat (ds : Bytes) : Nat := ds.foldl (fun acc c => acc * 10 + (c.val - 48)) 0

/-- Reading of a decimal integer: an optional minus sign, then one or more
decimal digits and nothing else. -/
def parseDecimal (t : Bytes) : Option Int :=
  match t with
  | [] => none
  | c :: r =>
    if c = 45 then
      if r ≠ [] ∧ r.all isDecDigit = true then some (-(parseNat r : Int)) else none
    else if t.all isDecDigit = true then some (parseNat t : Int)
    else none

/-- Whether every maximal run of single quotes in the bytes has even length;
the flag tells whether an odd number of single quotes has been read in the
run that is open at the start. -/
def quoteRunsEvenFrom : Bool → Bytes → Bool
  | odd, [] => !odd
  | odd, c :: r =>
    if c = SQUOTE then quoteRunsEvenFrom (!odd) r
    else !odd && quoteRunsEvenFrom false r

/-- Whether every maximal run of single quotes in the bytes has even
length. -/
def quoteRunsEven (x : Bytes) : Bool := quoteRunsEvenFrom false x

/-- Scanning of a SQL string literal after its opening quote: two single
quotes in a row are a quote inside the literal, a single quote that stands
alone ends it.  The result is what follows the end of the literal, `none`
when the literal does not end. -/
def literalTail : Bytes → Option Bytes
  | [] => none
  | [c] => if c = SQUOTE then some [] else none
  | c :: d :: r =>
    if c = SQUOTE then
      if d = SQUOTE then literalTail r else some (d :: r)
    else literalTail (d :: r)

/-- The dot-separated segments of a path; a path without a dot is one
segment, the empty path is one empty segment. -/
def splitDots : Bytes → List Bytes
  | [] => [[]]
  | c :: r =>
    if c = DOT then [] :: splitDots r
    else
      match splitDots r with
      | [] => [[c]]
      | seg :: segs => (c :: seg) :: segs

/-- One byte inside a quoted identifier: a double quote is doubled. -/
def escapeDquote (c : Byte) : Bytes :=
  if c = DQUOTE then [DQUOTE, DQUOTE] else [c]

/-- One segment as the claim on quoted paths words it: the bare star for the
segment that is exactly a star, otherwise the segment between double quotes
with each double quote doubled. -/
def encodeSegment (seg : Bytes) : Bytes :=
  if seg = [STAR] then [STAR]
  else DQUOTE :: (seg.flatMap escapeDquote ++ [DQUOTE])

/-- The encoded segments joined by dots. -/
def joinSegments (segs : List Bytes) : Bytes :=
  (List.intersperse [DOT] (segs.map encodeSegment)).flatten

/-- Unquoting of a SQL identifier.  Outside quotes a double quote opens a
quoted run and any other byte is copied; inside quotes two double quotes in a
row give one double quote, a double quote that stands alone closes the run and
any other byte is copied.  The flag tells whether a quoted run is open; the
result is `none` when a run is still open at the end. -/
def unquoteIdent : Bool → Bytes → Option Bytes
  | false, [] => some []
  | true, [] => none
  | false, c :: r =>
    if c = DQUOTE then unquoteIdent true r
    else (unquoteIdent false r).map (fun x => c :: x)
  | true, [c] => if c = DQUOTE then some [] else none
  | true, c :: d :: r =>
    if c = DQUOTE then
      if d = DQUOTE then (unquoteIdent true r).map (fun x => DQUOTE :: x)
      else unquoteIdent false (d :: r)
    else (unquoteIdent true (d :: r)).map (fun x => c :: x)

end Types

/-! ## Theorems -/

namespace Types

theorem appendStringLoop_append (quote : Int) (s b : Bytes) :
    appendStringLoop quote s b = b ++ appendStringLoop quote s [] := by
  induction s generalizing b with
  | nil => simp [appendStringLoop]
  | cons c s ih =>
    simp only [appendStringLoop]
    split_ifs
    · exact ih b
    · rw [ih (b ++ _), ih ([] ++ _)]; simp
    · rw [ih (b ++ _), ih ([] ++ _)]; simp
    · rw [ih (b ++ _), ih ([] ++ _)]; simp
    · rw [ih (b ++ _), ih ([] ++ _)]; simp

theorem undoubleQuotes_cons_of_ne (c : Byte) (r : Bytes) (h : c ≠ SQUOTE) :
    undoubleQuotes (c :: r) = c :: undoubleQuotes r := by
  cases r with
  | nil => simp [undoubleQuotes]
  | cons d r => simp [undoubleQuotes, h]

theorem undoubleQuotes_literal_body (s : Bytes) :
    undoubleQuotes (appendStringLoop 1 s []) = s.filter (fun c => c ≠ NUL) := by
  induction s with
  | nil => simp [appendStringLoop, undoubleQuotes]
  | cons c s ih =>
    simp only [appendStringLoop]
    by_cases h0 : c = NUL
    · simp [h0, ih]
    · by_cases h1 : c = SQUOTE
      · subst h1
        rw [if_neg h0, if_pos ⟨by decide, rfl⟩, appendStringLoop_append]
        simp [undoubleQuotes, ih, h0]
      · have e1 : ¬ ((1 : Int) ≥ 1 ∧ c = SQUOTE) := fun h => h1 h.2
        have e2 : ¬ ((1 : Int) = 2 ∧ c = DQUOTE) := fun h => absurd h.1 (by decide)
        have e3 : ¬ ((1 : Int) = 2 ∧ c = BACKSLASH) := fun h => absurd h.1 (by decide)
        rw [if_neg h0, if_neg e1, if_neg e2, if_neg e3, appendStringLoop_append]
        simp [undoubleQuotes_cons_of_ne c _ h1, ih, h0]

theorem AppendString_literal_shape (s : Bytes) :
    AppendString [] s 1 = SQUOTE :: (appendStringLoop 1 s [] ++ [SQUOTE]) := by
  simp [AppendString, appendStringLoop_append 1 s [SQUOTE]]

/-- C1: in Literal mode (quote 1) the output of `AppendString` on an empty
buffer is a single quote, a body and a single quote; undoing the doubled
quotes of the body gives the input without its NUL bytes, and so does
re-parsing the whole output as a string literal. -/
theorem AppendString_literal_roundtrip (s : Bytes) :
    (∃ body, AppendString [] s 1 = SQUOTE :: (body ++ [SQUOTE]) ∧
      undoubleQuotes body = s.filter (fun c => c ≠ NUL)) ∧
    parseLiteral (AppendString [] s 1) = some (s.filter (fun c => c ≠ NUL)) := by
  refine ⟨⟨appendStringLoop 1 s [], AppendString_literal_shape s,
    undoubleQuotes_literal_body s⟩, ?_⟩
  rw [AppendString_literal_shape]
  simp [parseLiteral, undoubleQuotes_literal_body]

theorem appendStringLoop_ident (s : Bytes) :
    appendStringLoop 2 s [] = s.flatMap escapeIdentByte := by
  induction s with
  | nil => simp [appendStringLoop]
  | cons c s ih =>
    simp only [appendStringLoop, List.flatMap_cons, escapeIdentByte]
    by_cases h0 : c = NUL
    · simp [h0, ih]
    · by_cases h1 : c = SQUOTE
      · rw [if_neg h0, if_pos ⟨by decide, h1⟩, if_neg h0, if_pos h1,
          appendStringLoop_append, ih]
        simp
      · by_cases h2 : c = DQUOTE
        · rw [if_neg h0, if_neg (fun h => h1 h.2), if_pos ⟨trivial, h2⟩, if_neg h0, if_neg h1,
            if_pos h2, appendStringLoop_append, ih]
          simp
        · by_cases h3 : c = BACKSLASH
          · rw [if_neg h0, if_neg (fun h => h1 h.2), if_neg (fun h => h2 h.2),
              if_pos ⟨trivial, h3⟩, if_neg h0, if_neg h1, if_neg h2, if_pos h3,
              appendStringLoop_append, ih]
            simp
          · rw [if_neg h0, if_neg (fun h => h1 h.2), if_neg (fun h => h2 h.2),
              if_neg (fun h => h3 h.2), if_neg h0, if_neg h1, if_neg h2, if_neg h3,
              appendStringLoop_append, ih]
            simp

/-- C2: in Identifier mode (quote 2) the output of `AppendString` on an empty
buffer is a double quote, then for each byte of the input in order its
escaped form (nothing for NUL, two single quotes for a single quote,
backslash and double quote for a double quote, two backslashes for a
backslash, the byte itself otherwise), then a double quote. -/
theorem AppendString_identifier_output (s : Bytes) :
    AppendString [] s 2 = DQUOTE :: (s.flatMap escapeIdentByte ++ [DQUOTE]) := by
  simp [AppendString, appendStringLoop_append 2 s [DQUOTE], appendStringLoop_ident]

theorem AppendString_append (b s : Bytes) (quote : Int) :
    AppendString b s quote = b ++ AppendString [] s quote := by
  unfold AppendString
  by_cases h2 : quote = 2
  · subst h2
    simp [appendStringLoop_append 2 s (b ++ [DQUOTE]), appendStringLoop_append 2 s [DQUOTE]]
  · by_cases h1 : quote = 1
    · subst h1
      simp [appendStringLoop_append 1 s (b ++ [SQUOTE]), appendStringLoop_append 1 s [SQUOTE]]
    · simp only [if_neg h2, if_neg h1]
      rw [appendStringLoop_append quote s b]
      split_ifs <;> simp

theorem AppendNull_literal (b : Bytes) : AppendNull b 1 = b ++ strNULL := by
  simp [AppendNull]

theorem AppendNull_other (b : Bytes) (quote : Int) (h : quote ≠ 1) : AppendNull b quote = [] := by
  simp [AppendNull, h]

theorem appendBytes_some (b x : Bytes) (quote : Int) :
    appendBytes b (some x) quote =
      b ++ (if quote = 1 then SQUOTE :: (strHexPrefix ++ hexEncode x ++ [SQUOTE])
        else strHexPrefix ++ hexEncode x) := by
  unfold appendBytes
  split_ifs <;> simp

/-- C3 fails as stated: with a non-empty buffer, a null value and quote 0 the
buffer returned by `Append` is empty, so the old buffer is not a prefix of
it. -/
theorem Append_null_raw_drops_buffer :
    ¬ (([65] : Bytes) <+: Append [65] Value.null 0) := by
  simp [Append, AppendNull]

/-- C3 as amended: for a built-in value (null, boolean, integer, text, byte
slice) the buffer returned by `Append` has the old buffer as a prefix whenever
the quote is 1 or the value is neither null nor a nil byte slice; for null or
a nil byte slice under any other quote value the returned buffer is empty. -/
theorem Append_builtin_extends (b : Bytes) (v : Value) (quote : Int)
    (hv : v.isBuiltin = true) :
    (quote = 1 ∨ v.isAbsent = false → b <+: Append b v quote) ∧
    (quote ≠ 1 ∧ v.isAbsent = true → Append b v quote = []) := by
  cases v with
  | appender f => simp [Value.isBuiltin] at hv
  | valuer u e => simp [Value.isBuiltin] at hv
  | null =>
    simp only [Append, Value.isAbsent]
    refine ⟨fun h => ?_, fun h => AppendNull_other b quote h.1⟩
    rcases h with h | h
    · subst h; rw [AppendNull_literal]; exact List.prefix_append _ _
    · cases h
  | bytes x =>
    cases x with
    | none =>
      simp only [Append, appendBytes, Value.isAbsent]
      refine ⟨fun h => ?_, fun h => AppendNull_other b quote h.1⟩
      rcases h with h | h
      · subst h; rw [AppendNull_literal]; exact List.prefix_append _ _
      · cases h
    | some x =>
      simp only [Append, Value.isAbsent]
      refine ⟨fun _ => ?_, fun h => by simp at h⟩
      rw [appendBytes_some]; exact List.prefix_append _ _
  | string s =>
    simp only [Append, Value.isAbsent]
    refine ⟨fun _ => ?_, fun h => by simp at h⟩
    rw [AppendString_append]; exact List.prefix_append _ _
  | bool x =>
    simp only [Append, Value.isAbsent, appendBool]
    refine ⟨fun _ => ?_, fun h => by simp at h⟩
    split_ifs <;> exact List.prefix_append _ _
  | int8 x | int16 x | int32 x | int64 x | int x =>
    simp only [Append, Value.isAbsent, AppendInt]
    refine ⟨fun _ => ?_, fun h => by simp at h⟩
    split_ifs
    · rw [List.append_assoc]; exact List.prefix_append _ _
    · exact List.prefix_append _ _
  | uint8 x | uint16 x | uint32 x | uint64 x | uint x =>
    simp only [Append, Value.isAbsent, AppendUint]
    exact ⟨fun _ => List.prefix_append _ _, fun h => by simp at h⟩

/-- The amended C3 at a text value under quote 0 and at a null value under
quote 0, both on a buffer of one byte. -/
theorem Append_builtin_extends_witness :
    (([65] : Bytes) <+: Append [65] (Value.string [97]) 0) ∧
    Append [65] Value.null 0 = [] :=
  ⟨(Append_builtin_extends [65] (Value.string [97]) 0 rfl).1 (Or.inr rfl),
   (Append_builtin_extends [65] Value.null 0 rfl).2 ⟨by decide, rfl⟩⟩

/-- C4 fails as stated: with quote 0 and a non-empty buffer `AppendNull`
does not return the buffer it was given. -/
theorem AppendNull_raw_drops_buffer : AppendNull [65] 0 ≠ [65] := by
  decide

/-- C4 as amended: with quote 1 `AppendNull` returns the buffer followed by
the four bytes NULL; with any other quote value it returns the empty (nil)
buffer, whatever the buffer held. -/
theorem AppendNull_rule (b : Bytes) (quote : Int) :
    AppendNull b 1 = b ++ [78, 85, 76, 76] ∧ (quote ≠ 1 → AppendNull b quote = []) :=
  ⟨AppendNull_literal b, AppendNull_other b quote⟩

/-- The amended C4 at a buffer of one byte and quote 2. -/
theorem AppendNull_rule_witness :
    AppendNull [65] 1 = [65, 78, 85, 76, 76] ∧ AppendNull [65] 2 = [] :=
  ⟨(AppendNull_rule [65] 2).1, (AppendNull_rule [65] 2).2 (by decide)⟩

/-- C5 fails as stated: with quote 2, the value under which `AppendString`
wraps in double quotes, `AppendField` emits the path a.b without any quote. -/
theorem AppendField_quote_two_unquoted :
    AppendField [] [97, 46, 98] 2 = [97, 46, 98] ∧
    AppendField [] [97, 46, 98] 2 ≠ [34, 97, 34, 46, 34, 98, 34] := by
  decide

/-- C5 as amended: with quote 1, the value for which `appendField` emits
quotes, `AppendField` on an empty buffer yields "a"."b" for the path a.b,
"a".* for the path a.* and the bare * for the path *. -/
theorem AppendField_examples :
    AppendField [] [97, 46, 98] 1 = [34, 97, 34, 46, 34, 98, 34] ∧
    AppendField [] [97, 46, 42] 1 = [34, 97, 34, 46, 42] ∧
    AppendField [] [42] 1 = [42] := by
  decide

theorem Parser.Skip_length_le (p : Parser) (c : Byte) :
    (p.Skip c).2.b.length ≤ p.b.length := by
  obtain ⟨l⟩ := p
  cases l with
  | nil => simp [Parser.Skip]
  | cons d rest =>
    simp only [Parser.Skip]
    split_ifs <;> simp

/-- The iteration bound of the loop is never reached: any two bounds above the
number of unread bytes give the same result. -/
theorem appendFieldLoop_bound (quote : Int) (n : Nat) :
    ∀ (m : Nat) (p : Parser) (quoted : Bool) (b : Bytes), p.b.length < n → p.b.length < m →
      appendFieldLoop quote n p quoted b = appendFieldLoop quote m p quoted b := by
  induction n with
  | zero => intro m p quoted b h; exact absurd h (Nat.not_lt_zero _)
  | succ n ih =>
    intro m p quoted b hn hm
    cases m with
    | zero => exact absurd hm (Nat.not_lt_zero _)
    | succ m =>
      obtain ⟨l⟩ := p
      cases l with
      | nil => simp [appendFieldLoop, Parser.Valid]
      | cons c rest =>
        have hrn : rest.length < n := by simpa using hn
        have hrm : rest.length < m := by simpa using hm
        have hs := Parser.Skip_length_le ⟨rest⟩ STAR
        have hsn : ((Parser.Skip ⟨rest⟩ STAR).2).b.length < n := Nat.lt_of_le_of_lt hs hrn
        have hsm : ((Parser.Skip ⟨rest⟩ STAR).2).b.length < m := Nat.lt_of_le_of_lt hs hrm
        simp only [appendFieldLoop, Parser.Valid, Parser.Read, List.isEmpty_cons, Bool.not_false,
          if_true]
        split_ifs <;> first
          | exact ih m _ _ _ hrn hrm
          | exact ih m _ _ _ hsn hsm

theorem appendFieldLoop_raw (fuel : Nat) :
    ∀ (p : Parser) (b : Bytes), p.b.length < fuel →
      appendFieldLoop 0 fuel p false b = b ++ p.b := by
  induction fuel with
  | zero => intro p b h; exact absurd h (Nat.not_lt_zero _)
  | succ n ih =>
    intro p b h
    obtain ⟨l⟩ := p
    cases l with
    | nil => simp [appendFieldLoop, Parser.Valid]
    | cons c rest =>
      have hrest : rest.length < n := by simpa using h
      simp only [appendFieldLoop, Parser.Valid, Parser.Read, List.isEmpty_cons, Bool.not_false,
        if_true]
      by_cases hs : c = STAR
      · simp [hs, ih ⟨rest⟩ _ hrest]
      · by_cases hd : c = DOT
        · have hne : DOT ≠ STAR := by decide
          cases rest with
          | nil => simp [hd, hne, Parser.Skip, ih ⟨[]⟩ _ hrest]
          | cons d rest2 =>
            have hrest2 : rest2.length < n := by
              simp only [List.length_cons] at hrest; omega
            by_cases hds : d = STAR
            · simp [hd, hne, hds, Parser.Skip, ih ⟨rest2⟩ _ hrest2]
            · simp [hd, hne, hds, Parser.Skip, ih ⟨d :: rest2⟩ _ hrest]
        · simp [hs, hd, ih ⟨rest⟩ _ hrest]

/-- C6: with quote 0 `AppendField` returns the buffer followed by the path,
byte for byte. -/
theorem AppendField_raw (b p : Bytes) : AppendField b p 0 = b ++ p := by
  simp [AppendField, appendField, Parser.NewString, appendFieldLoop_raw]

theorem fromHexChar_hexDigit : ∀ n : Fin 16, fromHexChar (hexDigit n.val) = some n.val := by
  decide

theorem isLowerHex_hexDigit : ∀ n : Fin 16, isLowerHex (hexDigit n.val) = true := by
  decide

theorem hexEncode_length (x : Bytes) : (hexEncode x).length = 2 * x.length := by
  induction x with
  | nil => rfl
  | cons v rest ih => simp only [hexEncode, List.length_cons, ih]; omega

theorem hexEncode_lower (x : Bytes) : ∀ c ∈ hexEncode x, isLowerHex c = true := by
  induction x with
  | nil => intro c hc; simp [hexEncode] at hc
  | cons v rest ih =>
    intro c hc
    simp only [hexEncode, List.mem_cons] at hc
    have hhi : v.val / 16 < 16 := by omega
    have hlo : v.val % 16 < 16 := Nat.mod_lt _ (by decide)
    rcases hc with h | h | h
    · rw [h]; exact isLowerHex_hexDigit ⟨v.val / 16, hhi⟩
    · rw [h]; exact isLowerHex_hexDigit ⟨v.val % 16, hlo⟩
    · exact ih c h

theorem hexDecode_hexEncode (x : Bytes) : hexDecode (hexEncode x) = some x := by
  induction x with
  | nil => rfl
  | cons v rest ih =>
    have hhi : v.val / 16 < 16 := by omega
    have hlo : v.val % 16 < 16 := Nat.mod_lt _ (by decide)
    have e1 := fromHexChar_hexDigit ⟨v.val / 16, hhi⟩
    have e2 := fromHexChar_hexDigit ⟨v.val % 16, hlo⟩
    simp only at e1 e2
    simp only [hexEncode, hexDecode, e1, e2, ih]
    have hv : (Fin.ofNat (v.val / 16 * 16 + v.val % 16) : Fin 256) = v := by
      apply Fin.ext
      simp only [Fin.ofNat, Fin.val_mk]
      omega
    rw [hv]

/-- C7: for a present byte slice `appendBytes` returns the buffer followed by
backslash, x and the hex expansion of the slice, wrapped in single quotes
exactly when the quote is 1; the expansion has two digits per byte, all of
them lower-case hex digits, and decodes to the slice. -/
theorem appendBytes_present (b x : Bytes) (quote : Int) :
    appendBytes b (some x) quote =
      b ++ (if quote = 1 then [39] ++ ([92, 120] ++ hexEncode x) ++ [39]
        else [92, 120] ++ hexEncode x) ∧
    (hexEncode x).length = 2 * x.length ∧
    (hexEncode x).all isLowerHex = true ∧
    hexDecode (hexEncode x) = some x := by
  refine ⟨?_, hexEncode_length x, List.all_eq_true.mpr (hexEncode_lower x),
    hexDecode_hexEncode x⟩
  rw [appendBytes_some]
  split_ifs <;> simp [strHexPrefix, SQUOTE]

/-- C8: for a nil byte slice `appendBytes` returns what `AppendNull` returns;
for an empty, present slice it returns the buffer followed by backslash, x
and no hex digit, wrapped in single quotes when the quote is 1; with quote 1
the two results differ. -/
theorem appendBytes_nil_versus_empty (b : Bytes) (quote : Int) :
    appendBytes b none quote = AppendNull b quote ∧
    appendBytes b (some []) quote =
      b ++ (if quote = 1 then [39, 92, 120, 39] else [92, 120]) ∧
    appendBytes b none 1 = b ++ [78, 85, 76, 76] ∧
    appendBytes b (some []) 1 = b ++ [39, 92, 120, 39] ∧
    appendBytes b none 1 ≠ appendBytes b (some []) 1 := by
  have h1 : appendBytes b none 1 = b ++ [78, 85, 76, 76] := by
    simp [appendBytes, AppendNull, strNULL]
  have h2 : appendBytes b (some []) 1 = b ++ [39, 92, 120, 39] := by
    simp [appendBytes_some, hexEncode, strHexPrefix, SQUOTE]
  refine ⟨rfl, ?_, h1, h2, ?_⟩
  · rw [appendBytes_some]
    split_ifs <;> simp [hexEncode, strHexPrefix, SQUOTE]
  · rw [h1, h2]
    intro h
    have h3 := List.append_cancel_left h
    exact absurd h3 (by decide)

theorem take_strip_last (l : Bytes) (a : Byte) :
    (l ++ [a]).take ((l ++ [a]).length - 1) = l := by
  have h : (l ++ [a]).length - 1 = l.length := by simp
  rw [h, List.take_left]

theorem appendMapLoop_eq (es : List (Bytes × Bytes)) (b : Bytes) :
    appendMapLoop es b = b ++ (es.map (fun e => mapEntry e ++ [COMMA])).flatten := by
  induction es generalizing b with
  | nil => simp [appendMapLoop]
  | cons e es ih =>
    obtain ⟨key, value⟩ := e
    simp only [appendMapLoop, List.map_cons, List.flatten_cons]
    rw [ih, AppendString_append (AppendString b key 2 ++ strArrow) value 2,
      AppendString_append b key 2]
    simp [mapEntry]

theorem flatten_entries_comma (e : Bytes × Bytes) (es : List (Bytes × Bytes)) :
    ((e :: es).map (fun e => mapEntry e ++ [COMMA])).flatten =
      joinEntries (e :: es) ++ [COMMA] := by
  induction es generalizing e with
  | nil => simp [joinEntries]
  | cons e2 es ih =>
    have h := ih e2
    simp only [List.map_cons, List.flatten_cons, joinEntries, List.intersperse] at h ⊢
    rw [h]
    simp

theorem appendMapLoop_nonempty (es : List (Bytes × Bytes)) (b : Bytes) (h : es ≠ []) :
    appendMapLoop es b = (b ++ joinEntries es) ++ [COMMA] := by
  cases es with
  | nil => exact absurd rfl h
  | cons e es => rw [appendMapLoop_eq, flatten_entries_comma, List.append_assoc]

/-- C9: for a present map whose entries are visited in the order `es`,
`AppendStringStringMap` returns the buffer followed by the entries (key and
value each encoded with quote 2, an arrow in between) joined by single commas
without a trailing comma, wrapped in single quotes exactly when the quote is
1; for no entry the appended part is two single quotes with quote 1 and empty
otherwise; and when there is an entry, the buffer before the strip ends in the
comma appended by the last iteration, which is the one byte the strip
removes. -/
theorem AppendStringStringMap_present (b : Bytes) (es : List (Bytes × Bytes)) (quote : Int) :
    AppendStringStringMap b (some es) quote =
      b ++ (if quote = 1 then [39] ++ joinEntries es ++ [39] else joinEntries es) ∧
    (es = [] → AppendStringStringMap b (some es) quote =
      b ++ (if quote = 1 then [39, 39] else [])) ∧
    (es ≠ [] → ∀ b1 : Bytes, appendMapLoop es b1 = (b1 ++ joinEntries es) ++ [44] ∧
      (appendMapLoop es b1).take ((appendMapLoop es b1).length - 1) = b1 ++ joinEntries es) := by
  have main : AppendStringStringMap b (some es) quote =
      b ++ (if quote = 1 then [39] ++ joinEntries es ++ [39] else joinEntries es) := by
    unfold AppendStringStringMap
    cases es with
    | nil => split_ifs <;> simp [appendMapLoop, joinEntries, SQUOTE]
    | cons e es =>
      have hl : (e :: es).length > 0 := by simp
      simp only [appendMapLoop_nonempty (e :: es) _ (List.cons_ne_nil e es), take_strip_last,
        if_pos hl]
      split_ifs <;> simp [SQUOTE]
  refine ⟨main, ?_, ?_⟩
  · intro h
    rw [main, h]
    split_ifs <;> simp [joinEntries]
  · intro h b1
    have e := appendMapLoop_nonempty es b1 h
    refine ⟨e, ?_⟩
    rw [e]
    exact take_strip_last _ _

/-- The statement of C9 at the empty map and at the map with the one entry
a => b, with quote 1. -/
theorem AppendStringStringMap_present_witness :
    AppendStringStringMap [] (some []) 1 = [] ++ (if (1 : Int) = 1 then [39, 39] else []) ∧
    (appendMapLoop [([97], [98])] [39] = ([39] ++ joinEntries [([97], [98])]) ++ [44] ∧
      (appendMapLoop [([97], [98])] [39]).take ((appendMapLoop [([97], [98])] [39]).length - 1)
        = [39] ++ joinEntries [([97], [98])]) :=
  ⟨(AppendStringStringMap_present [] [] 1).2.1 rfl,
   (AppendStringStringMap_present [] [([97], [98])] 1).2.2 (by decide) [39]⟩

theorem applyWrites_length (ws : List (Nat × Byte)) :
    ∀ b : Bytes, (applyWrites b ws).length = b.length := by
  induction ws with
  | nil => intro b; rfl
  | cons w ws ih =>
    intro b
    have h := ih (b.set w.1 w.2)
    simp only [applyWrites, List.foldl_cons] at h ⊢
    rw [h, List.length_set]

/-- C10 fails as stated: a method that stores the byte Z at index 0 of the
buffer it is given and then fails with the text boom makes `Append` return
Z followed by the error marker, not the old buffer A followed by it. -/
theorem appendAppender_overwritten_buffer :
    Append [65] (Value.appender
      (fun _ _ => ⟨[1, 2, 3], some [98, 111, 111, 109], [(0, 90)]⟩)) 1 =
        [90, 63, 33, 40, 98, 111, 111, 109, 41] ∧
    Append [65] (Value.appender
      (fun _ _ => ⟨[1, 2, 3], some [98, 111, 111, 109], [(0, 90)]⟩)) 1 ≠
        [65] ++ [63, 33, 40] ++ [98, 111, 111, 109] ++ [41] := by
  constructor
  · simp [Append, appendAppender, applyWrites, appendError, strErrOpen, RPAREN]
  · simp [Append, appendAppender, applyWrites, appendError, strErrOpen, RPAREN]

/-- C10 as amended: when the `AppendValue` method of a self-encoding value
fails with the text `msg`, `appendAppender` and `Append` return the caller's
buffer, with its bytes as the method left them, followed by the error marker:
question mark, exclamation mark, opening parenthesis, `msg`, closing
parenthesis.  That buffer has the length of the old one, and it is the old
buffer when the method stored nothing into it; the buffer that the method
returned is not used. -/
theorem appendAppender_failure (b msg : Bytes) (quote : Int)
    (v : Bytes → Int → AppendValueResult) (h : (v b quote).err = some msg) :
    appendAppender b v quote =
      applyWrites b (v b quote).writes ++ [63, 33, 40] ++ msg ++ [41] ∧
    Append b (Value.appender v) quote =
      applyWrites b (v b quote).writes ++ [63, 33, 40] ++ msg ++ [41] ∧
    (applyWrites b (v b quote).writes).length = b.length ∧
    ((v b quote).writes = [] →
      Append b (Value.appender v) quote = b ++ [63, 33, 40] ++ msg ++ [41]) := by
  have e : appendAppender b v quote =
      applyWrites b (v b quote).writes ++ [63, 33, 40] ++ msg ++ [41] := by
    simp only [appendAppender, h, appendError, strErrOpen, RPAREN]
  have e2 : Append b (Value.appender v) quote =
      applyWrites b (v b quote).writes ++ [63, 33, 40] ++ msg ++ [41] := by
    simp only [Append]; exact e
  refine ⟨e, e2, applyWrites_length _ b, fun hw => ?_⟩
  rw [e2, hw]
  rfl

/-- The amended C10 at a method that returns another buffer, stores nothing
into the one it was given and fails with the text boom, and at a method that
stores the byte Z at index 0 before failing. -/
theorem appendAppender_failure_witness :
    Append [65] (Value.appender (fun _ _ => ⟨[1, 2, 3], some [98, 111, 111, 109], []⟩)) 1 =
      [65] ++ [63, 33, 40] ++ [98, 111, 111, 109] ++ [41] ∧
    Append [65] (Value.appender
      (fun _ _ => ⟨[1, 2, 3], some [98, 111, 111, 109], [(0, 90)]⟩)) 1 =
        applyWrites [65] [(0, 90)] ++ [63, 33, 40] ++ [98, 111, 111, 109] ++ [41] :=
  ⟨(appendAppender_failure [65] [98, 111, 111, 109] 1
      (fun _ _ => ⟨[1, 2, 3], some [98, 111, 111, 109], []⟩) rfl).2.2.2 rfl,
   (appendAppender_failure [65] [98, 111, 111, 109] 1
      (fun _ _ => ⟨[1, 2, 3], some [98, 111, 111, 109], [(0, 90)]⟩) rfl).2.1⟩

/-- C11: for an indirect value whose `Value` method succeeds with the
underlying value `u`, `Append` returns what it returns for `u` with the same
buffer and quote; when the method fails with the text `msg`, `Append` returns
the buffer followed by the error marker around `msg`.  `Append` is a total
function, so no failure reaches the caller. -/
theorem Append_valuer (b msg : Bytes) (u : Value) (quote : Int) :
    Append b (Value.valuer u none) quote = Append b u quote ∧
    appendDriverValuer b u none quote = Append b u quote ∧
    Append b (Value.valuer u (some msg)) quote = b ++ [63, 33, 40] ++ msg ++ [41] ∧
    appendDriverValuer b u (some msg) quote = b ++ [63, 33, 40] ++ msg ++ [41] := by
  refine ⟨?_, ?_, ?_, ?_⟩
  · simp [Append, appendDriverValuer]
  · simp [appendDriverValuer]
  · simp [Append, appendDriverValuer, appendError, strErrOpen, RPAREN]
  · simp [appendDriverValuer, appendError, strErrOpen, RPAREN]

theorem appendStringLoop_no_NUL (quote : Int) (s : Bytes) :
    NUL ∉ appendStringLoop quote s [] := by
  induction s with
  | nil => simp [appendStringLoop]
  | cons c s ih =>
    have h1 : NUL ≠ SQUOTE := by decide
    have h2 : NUL ≠ DQUOTE := by decide
    have h3 : NUL ≠ BACKSLASH := by decide
    simp only [appendStringLoop]
    split_ifs with h0
    · exact ih
    · rw [appendStringLoop_append]; simp [ih, h1]
    · rw [appendStringLoop_append]; simp [ih, h2, h3]
    · rw [appendStringLoop_append]; simp [ih, h3]
    · rw [appendStringLoop_append]
      simp only [List.nil_append, List.mem_append, List.mem_singleton, not_or]
      exact ⟨fun h => h0 h.symm, ih⟩

theorem AppendString_empty_no_NUL (s : Bytes) (quote : Int) :
    NUL ∉ AppendString [] s quote := by
  have h1 : NUL ≠ SQUOTE := by decide
  have h2 : NUL ≠ DQUOTE := by decide
  have hl := appendStringLoop_no_NUL quote s
  unfold AppendString
  by_cases q2 : quote = 2
  · subst q2
    simp [appendStringLoop_append 2 s [DQUOTE], hl, h2]
  · by_cases q1 : quote = 1
    · subst q1
      simp [appendStringLoop_append 1 s [SQUOTE], hl, h1]
    · simp only [if_neg q2, if_neg q1]
      split_ifs <;> simp [hl, h2]

/-- C12: the bytes that `AppendString` appends contain no NUL byte, whatever
the quote value; hence a buffer without a NUL byte stays without one. -/
theorem AppendString_no_NUL (b s : Bytes) (quote : Int) :
    NUL ∉ AppendString [] s quote ∧
    AppendString b s quote = b ++ AppendString [] s quote ∧
    (NUL ∉ b → NUL ∉ AppendString b s quote) := by
  refine ⟨AppendString_empty_no_NUL s quote, AppendString_append b s quote, fun hb => ?_⟩
  rw [AppendString_append]
  simp only [List.mem_append, not_or]
  exact ⟨hb, AppendString_empty_no_NUL s quote⟩

/-- The statement of C12 at a buffer of one byte and a text with two NUL
bytes, with quote 2. -/
theorem AppendString_no_NUL_witness :
    NUL ∉ AppendString [65] [0, 97, 0] 2 :=
  (AppendString_no_NUL [65] [0, 97, 0] 2).2.2 (by decide)

/-- C14: whatever the quote value, `Append` of the boolean true is the buffer
followed by the four bytes TRUE and `Append` of false is the buffer followed
by the five bytes FALSE. -/
theorem Append_bool (b : Bytes) (quote : Int) :
    Append b (Value.bool true) quote = b ++ [84, 82, 85, 69] ∧
    Append b (Value.bool false) quote = b ++ [70, 65, 76, 83, 69] := by
  constructor <;> simp [Append, appendBool, strTRUE, strFALSE]

/-- C16 at quote 3: `AppendString` adds no opening byte and one closing
double quote, so a wrapper byte is added on one side only. -/
theorem AppendString_quote_three_unbalanced :
    AppendString [] [97] 3 = [97, 34] := by
  decide

theorem appendStringLoop_concat (quote : Int) (s1 s2 : Bytes) :
    appendStringLoop quote (s1 ++ s2) [] =
      appendStringLoop quote s1 [] ++ appendStringLoop quote s2 [] := by
  induction s1 with
  | nil => simp [appendStringLoop]
  | cons c s1 ih =>
    simp only [List.cons_append, appendStringLoop, List.append_eq]
    split_ifs
    · exact ih
    · rw [appendStringLoop_append, ih, appendStringLoop_append quote s1 ([] ++ _)]; simp
    · rw [appendStringLoop_append, ih, appendStringLoop_append quote s1 ([] ++ _)]; simp
    · rw [appendStringLoop_append, ih, appendStringLoop_append quote s1 ([] ++ _)]; simp
    · rw [appendStringLoop_append, ih, appendStringLoop_append quote s1 ([] ++ _)]; simp

theorem AppendString_parts (s : Bytes) (quote : Int) :
    AppendString [] s quote =
      (if quote = 2 then [DQUOTE] else if quote = 1 then [SQUOTE] else []) ++
        appendStringLoop quote s [] ++
      (if quote ≥ 2 then [DQUOTE] else if quote = 1 then [SQUOTE] else []) := by
  unfold AppendString
  by_cases q2 : quote = 2
  · subst q2
    simp [appendStringLoop_append 2 s [DQUOTE]]
  · by_cases q1 : quote = 1
    · subst q1
      simp [appendStringLoop_append 1 s [SQUOTE]]
    · simp only [if_neg q2, if_neg q1]
      split_ifs <;> simp

/-- C19: `AppendString` on a buffer is the buffer followed by `AppendString`
on the empty buffer; that output is the opening wrapper, the escaped body and
the closing wrapper, and the escaped body of a concatenation is the
concatenation of the escaped bodies. -/
theorem AppendString_buffer_independent (b s s1 s2 : Bytes) (quote : Int) :
    AppendString b s quote = b ++ AppendString [] s quote ∧
    AppendString [] s quote =
      (if quote = 2 then [DQUOTE] else if quote = 1 then [SQUOTE] else []) ++
        appendStringLoop quote s [] ++
      (if quote ≥ 2 then [DQUOTE] else if quote = 1 then [SQUOTE] else []) ∧
    appendStringLoop quote (s1 ++ s2) [] =
      appendStringLoop quote s1 [] ++ appendStringLoop quote s2 [] :=
  ⟨AppendString_append b s quote, AppendString_parts s quote,
    appendStringLoop_concat quote s1 s2⟩

theorem decDigit_val (d : Nat) (h : d < 10) : (decDigit d).val = 48 + d := by
  simp only [decDigit, Fin.ofNat, Fin.val_mk]
  omega

theorem isDecDigit_decDigit (d : Nat) (h : d < 10) : isDecDigit (decDigit d) = true := by
  simp only [isDecDigit, decDigit_val d h, Bool.and_eq_true, decide_eq_true_eq]
  omega

theorem parseNat_concat (ds : Bytes) (c : Byte) :
    parseNat (ds ++ [c]) = parseNat ds * 10 + (c.val - 48) := by
  simp [parseNat, List.foldl_append]

theorem parseNat_digits (L : List Nat) (h : ∀ d ∈ L, d < 10) :
    parseNat (L.reverse.map decDigit) = Nat.ofDigits 10 L := by
  induction L with
  | nil => simp [parseNat]
  | cons d L ih =>
    have hd : d < 10 := h d (List.mem_cons_self d L)
    have hL : ∀ x ∈ L, x < 10 := fun x hx => h x (List.mem_cons_of_mem d hx)
    rw [List.reverse_cons, List.map_append, List.map_singleton, parseNat_concat, ih hL,
      decDigit_val d hd, Nat.ofDigits_cons]
    omega

theorem formatDecimal_parse (u : Nat) : parseNat (formatDecimal u) = u := by
  unfold formatDecimal
  split_ifs with h0
  · subst h0; decide
  · rw [parseNat_digits _ (fun d hd => Nat.digits_lt_base (by decide) hd)]
    exact Nat.ofDigits_digits 10 u

theorem formatDecimal_ne_nil (u : Nat) : formatDecimal u ≠ [] := by
  unfold formatDecimal
  split_ifs with h0
  · simp
  · simp [Nat.digits_ne_nil_iff_ne_zero, h0]

theorem formatDecimal_digits (u : Nat) : (formatDecimal u).all isDecDigit = true := by
  unfold formatDecimal
  split_ifs with h0
  · decide
  · rw [List.all_eq_true]
    intro c hc
    simp only [List.mem_map, List.mem_reverse] at hc
    obtain ⟨d, hd, rfl⟩ := hc
    exact isDecDigit_decDigit d (Nat.digits_lt_base (by decide) hd)

theorem formatDecimal_leading (u : Nat) (h : (formatDecimal u).head? = some 48) :
    u = 0 := by
  by_contra h0
  have hne : Nat.digits 10 u ≠ [] := by simp [Nat.digits_ne_nil_iff_ne_zero, h0]
  have hlast := Nat.getLast_digit_ne_zero 10 h0
  have hlt : (Nat.digits 10 u).getLast hne < 10 :=
    Nat.digits_lt_base (by decide) (List.getLast_mem hne)
  simp only [formatDecimal, if_neg h0, List.head?_map, List.head?_reverse] at h
  rw [List.getLast?_eq_getLast _ hne] at h
  simp only [Option.map_some', Option.some.injEq] at h
  have hv := decDigit_val _ hlt
  rw [h] at hv
  have : ((48 : Byte)).val = 48 := rfl
  omega

theorem formatDecimal_zero : formatDecimal 0 = [48] := by
  decide

theorem parseDecimal_unsigned (u : Nat) : parseDecimal (formatDecimal u) = some (u : Int) := by
  have hne := formatDecimal_ne_nil u
  have hd := formatDecimal_digits u
  have hp := formatDecimal_parse u
  cases hf : formatDecimal u with
  | nil => exact absurd hf hne
  | cons c r =>
    rw [hf] at hd hp
    have hc : isDecDigit c = true := by
      simp only [List.all_cons, Bool.and_eq_true] at hd; exact hd.1
    have hc45 : c ≠ 45 := by
      intro h; subst h; exact absurd hc (by decide)
    simp only [parseDecimal, if_neg hc45, hd, if_true, hp]

theorem parseDecimal_negative (u : Nat) :
    parseDecimal (45 :: formatDecimal u) = some (-(u : Int)) := by
  simp [parseDecimal, formatDecimal_ne_nil u, formatDecimal_digits u, formatDecimal_parse u]

theorem AppendInt_text (b : Bytes) (n : Int) :
    ∃ digits : Bytes,
      AppendInt b n = b ++ ((if n < 0 then [45] else []) ++ digits) ∧
      digits ≠ [] ∧ digits.all isDecDigit = true ∧
      (digits.head? = some 48 ↔ n = 0) ∧ (n = 0 → digits = [48]) ∧
      parseDecimal ((if n < 0 then [45] else []) ++ digits) = some n := by
  by_cases hn : n < 0
  · refine ⟨formatDecimal n.natAbs, ?_, formatDecimal_ne_nil _, formatDecimal_digits _, ?_, ?_, ?_⟩
    · simp [AppendInt, hn]
    · constructor
      · intro h
        have := formatDecimal_leading _ h
        omega
      · intro h; omega
    · intro h; omega
    · simp only [if_pos hn, List.singleton_append, parseDecimal_negative]
      congr 1
      omega
  · refine ⟨formatDecimal n.toNat, ?_, formatDecimal_ne_nil _, formatDecimal_digits _, ?_, ?_, ?_⟩
    · simp [AppendInt, hn]
    · constructor
      · intro h
        have := formatDecimal_leading _ h
        omega
      · intro h; subst h; decide
    · intro h; subst h; decide
    · simp only [if_neg hn, List.nil_append, parseDecimal_unsigned]
      congr 1
      omega

theorem AppendUint_eq_AppendInt (b : Bytes) (u : Nat) : AppendUint b u = AppendInt b (u : Int) := by
  have h : ¬ ((u : Int) < 0) := by omega
  simp [AppendUint, AppendInt, h]

/-- C13: for an integer value of any width with numeric value `n`, `Append`
returns, whatever the quote value, the buffer followed by the base-10 text of
`n`: a minus sign exactly when `n` is negative, then one or more decimal
digits, the first of which is 0 only for the single digit of `n = 0`; nothing
else is added, and reading the text as a decimal integer gives `n`. -/
theorem Append_integer (b : Bytes) (v : Value) (quote : Int) (n : Int)
    (h : v.intValue = some n) :
    ∃ digits : Bytes,
      Append b v quote = b ++ ((if n < 0 then [45] else []) ++ digits) ∧
      digits ≠ [] ∧ digits.all isDecDigit = true ∧
      (digits.head? = some 48 ↔ n = 0) ∧ (n = 0 → digits = [48]) ∧
      parseDecimal ((if n < 0 then [45] else []) ++ digits) = some n := by
  cases v <;> simp only [Value.intValue, Option.some.injEq, reduceCtorEq] at h <;> subst h <;>
    simp only [Append, AppendUint_eq_AppendInt] <;> exact AppendInt_text b _

/-- The statement of C13 at the 8-bit integer -42 with quote 1 on a buffer of
one byte. -/
theorem Append_integer_witness :
    ∃ digits : Bytes,
      Append [65] (Value.int8 (-42)) 1 = [65] ++ ((if (-42 : Int) < 0 then [45] else []) ++ digits) ∧
      digits ≠ [] ∧ digits.all isDecDigit = true ∧
      (digits.head? = some 48 ↔ (-42 : Int) = 0) ∧ ((-42 : Int) = 0 → digits = [48]) ∧
      parseDecimal ((if (-42 : Int) < 0 then [45] else []) ++ digits) = some (-42) :=
  Append_integer [65] (Value.int8 (-42)) 1 (-42) rfl

theorem AppendStringStringMap_some (b : Bytes) (es : List (Bytes × Bytes)) (quote : Int) :
    AppendStringStringMap b (some es) quote =
      b ++ (if quote = 1 then [SQUOTE] ++ joinEntries es ++ [SQUOTE] else joinEntries es) := by
  unfold AppendStringStringMap
  cases es with
  | nil => split_ifs <;> simp [appendMapLoop, joinEntries]
  | cons e es =>
    have hl : (e :: es).length > 0 := by simp
    simp only [appendMapLoop_nonempty (e :: es) _ (List.cons_ne_nil e es), take_strip_last,
      if_pos hl]
    split_ifs <;> simp

theorem quoteRunsEvenFrom_append (xs ys : Bytes) :
    ∀ odd : Bool, quoteRunsEvenFrom odd xs = true →
      quoteRunsEvenFrom odd (xs ++ ys) = quoteRunsEvenFrom false ys := by
  induction xs with
  | nil =>
    intro odd h
    cases odd with
    | false => rfl
    | true => simp [quoteRunsEvenFrom] at h
  | cons c r ih =>
    intro odd h
    simp only [quoteRunsEvenFrom, List.cons_append, List.append_eq] at h ⊢
    split_ifs at h ⊢ with hc
    · exact ih _ h
    · simp only [Bool.and_eq_true] at h
      rw [h.1, ih false h.2]
      simp

theorem quoteRunsEven_append (xs ys : Bytes) (hx : quoteRunsEven xs = true)
    (hy : quoteRunsEven ys = true) : quoteRunsEven (xs ++ ys) = true := by
  unfold quoteRunsEven at *
  rw [quoteRunsEvenFrom_append xs ys false hx]
  exact hy

theorem quoteRunsEven_escapeIdentByte (c : Byte) : quoteRunsEven (escapeIdentByte c) = true := by
  unfold escapeIdentByte
  split_ifs with h0 h1 h2 h3
  · rfl
  · decide
  · decide
  · decide
  · simp [quoteRunsEven, quoteRunsEvenFrom, h1]

theorem quoteRunsEven_ident_body (s : Bytes) :
    quoteRunsEven (s.flatMap escapeIdentByte) = true := by
  induction s with
  | nil => rfl
  | cons c s ih =>
    rw [List.flatMap_cons]
    exact quoteRunsEven_append _ _ (quoteRunsEven_escapeIdentByte c) ih

theorem AppendString_ident_eq (s : Bytes) :
    AppendString [] s 2 = [DQUOTE] ++ (s.flatMap escapeIdentByte ++ [DQUOTE]) := by
  simp [AppendString, appendStringLoop_append 2 s [DQUOTE], appendStringLoop_ident]

theorem quoteRunsEven_AppendString_ident (s : Bytes) :
    quoteRunsEven (AppendString [] s 2) = true := by
  rw [AppendString_ident_eq]
  exact quoteRunsEven_append _ _ (by decide)
    (quoteRunsEven_append _ _ (quoteRunsEven_ident_body s) (by decide))

theorem quoteRunsEven_mapEntry (e : Bytes × Bytes) : quoteRunsEven (mapEntry e) = true := by
  unfold mapEntry
  exact quoteRunsEven_append _ _
    (quoteRunsEven_append _ _ (quoteRunsEven_AppendString_ident e.1) (by decide))
    (quoteRunsEven_AppendString_ident e.2)

theorem joinEntries_cons_cons (e e2 : Bytes × Bytes) (es : List (Bytes × Bytes)) :
    joinEntries (e :: e2 :: es) = mapEntry e ++ ([COMMA] ++ joinEntries (e2 :: es)) := by
  simp [joinEntries, List.intersperse]

theorem quoteRunsEven_joinEntries (es : List (Bytes × Bytes)) :
    quoteRunsEven (joinEntries es) = true := by
  induction es with
  | nil => decide
  | cons e es ih =>
    cases es with
    | nil => simpa [joinEntries] using quoteRunsEven_mapEntry e
    | cons e2 es =>
      rw [joinEntries_cons_cons]
      exact quoteRunsEven_append _ _ (quoteRunsEven_mapEntry e)
        (quoteRunsEven_append _ _ (by decide) ih)

theorem literalTail_of_runs_even (n : Nat) :
    ∀ body : Bytes, body.length ≤ n → quoteRunsEven body = true →
      literalTail (body ++ [SQUOTE]) = some [] := by
  induction n with
  | zero =>
    intro body hl _
    have : body = [] := List.length_eq_zero.mp (Nat.le_zero.mp hl)
    subst this
    decide
  | succ n ih =>
    intro body hl h
    cases body with
    | nil => decide
    | cons c r =>
      have hr : r.length ≤ n := by simpa using hl
      by_cases hc : c = SQUOTE
      · subst hc
        cases r with
        | nil => simp [quoteRunsEven, quoteRunsEvenFrom] at h
        | cons d r2 =>
          by_cases hd : d = SQUOTE
          · subst hd
            have h2 : quoteRunsEven r2 = true := by
              simpa [quoteRunsEven, quoteRunsEvenFrom] using h
            have hr2 : r2.length ≤ n := by
              simp only [List.length_cons] at hr; omega
            have e := ih r2 hr2 h2
            simpa [literalTail] using e
          · simp [quoteRunsEven, quoteRunsEvenFrom, hd] at h
      · have h2 : quoteRunsEven r = true := by
          simpa [quoteRunsEven, quoteRunsEvenFrom, hc] using h
        have e := ih r hr h2
        cases r with
        | nil => simp [literalTail, hc]
        | cons d r2 => simpa [literalTail, hc] using e

/-- C18: for a present map, given by its entries in iteration order,
`AppendStringStringMap` on an empty buffer with quote 1 returns a single
quote, then exactly its output for quote 0, then a single quote; in every
encoded key and value, and in the whole body, every maximal run of single
quotes has even length; and scanning the literal after its opening quote, the
first single quote that stands alone is the closing one, with nothing after
it. -/
theorem AppendStringStringMap_literal_balanced (es : List (Bytes × Bytes)) :
    AppendStringStringMap [] (some es) 1 =
      SQUOTE :: (AppendStringStringMap [] (some es) 0 ++ [SQUOTE]) ∧
    es.all (fun e => quoteRunsEven (AppendString [] e.1 2) &&
      quoteRunsEven (AppendString [] e.2 2)) = true ∧
    quoteRunsEven (AppendStringStringMap [] (some es) 0) = true ∧
    literalTail (AppendStringStringMap [] (some es) 0 ++ [SQUOTE]) = some [] := by
  have h0 : AppendStringStringMap [] (some es) 0 = joinEntries es := by
    rw [AppendStringStringMap_some]; simp
  have h1 : AppendStringStringMap [] (some es) 1 = SQUOTE :: (joinEntries es ++ [SQUOTE]) := by
    rw [AppendStringStringMap_some]; simp
  have he := quoteRunsEven_joinEntries es
  refine ⟨by rw [h1, h0], ?_, by rw [h0]; exact he, ?_⟩
  · rw [List.all_eq_true]
    intro e _
    simp [quoteRunsEven_AppendString_ident]
  · rw [h0]
    exact literalTail_of_runs_even _ _ (Nat.le_refl _) he

theorem appendFieldLoop_buf (quote : Int) (n : Nat) :
    ∀ (p : Parser) (quoted : Bool) (b : Bytes),
      appendFieldLoop quote n p quoted b = b ++ appendFieldLoop quote n p quoted [] := by
  induction n with
  | zero => intro p quoted b; simp [appendFieldLoop]
  | succ n ih =>
    intro p quoted b
    simp only [appendFieldLoop]
    split_ifs <;> first
      | (conv_lhs => rw [ih]
         conv_rhs => rw [ih]
         simp only [List.append_assoc, List.nil_append])
      | simp only [List.nil_append, List.append_nil]

theorem appendFieldLoop_nil (n : Nat) (quoted : Bool) (b : Bytes) :
    appendFieldLoop 1 (n + 1) ⟨[]⟩ quoted b = b ++ (if quoted = true then [DQUOTE] else []) := by
  cases quoted <;> simp [appendFieldLoop, Parser.Valid]

theorem appendFieldLoop_star (n : Nat) (r b : Bytes) :
    appendFieldLoop 1 (n + 1) ⟨STAR :: r⟩ false b = appendFieldLoop 1 n ⟨r⟩ false (b ++ [STAR]) := by
  simp [appendFieldLoop, Parser.Valid, Parser.Read]

theorem appendFieldLoop_dot_star (n : Nat) (r b : Bytes) (quoted : Bool) :
    appendFieldLoop 1 (n + 1) ⟨DOT :: STAR :: r⟩ quoted b =
      appendFieldLoop 1 n ⟨r⟩ false
        (b ++ ((if quoted = true then [DQUOTE] else []) ++ [DOT, STAR])) := by
  have hds : DOT ≠ STAR := by decide
  cases quoted <;> simp [appendFieldLoop, Parser.Valid, Parser.Read, Parser.Skip, hds]

theorem appendFieldLoop_dot (n : Nat) (r b : Bytes) (quoted : Bool)
    (h : r.head? ≠ some STAR) :
    appendFieldLoop 1 (n + 1) ⟨DOT :: r⟩ quoted b =
      appendFieldLoop 1 n ⟨r⟩ true
        (b ++ ((if quoted = true then [DQUOTE] else []) ++ [DOT, DQUOTE])) := by
  have hds : DOT ≠ STAR := by decide
  cases r with
  | nil => cases quoted <;> simp [appendFieldLoop, Parser.Valid, Parser.Read, Parser.Skip, hds]
  | cons d r2 =>
    have hd : d ≠ STAR := by
      intro e; exact h (by simp [e])
    cases quoted <;> simp [appendFieldLoop, Parser.Valid, Parser.Read, Parser.Skip, hds, hd]

theorem appendFieldLoop_byte (n : Nat) (c : Byte) (r b : Bytes) (quoted : Bool)
    (hdot : c ≠ DOT) (hstar : ¬ (c = STAR ∧ quoted = false)) :
    appendFieldLoop 1 (n + 1) ⟨c :: r⟩ quoted b =
      appendFieldLoop 1 n ⟨r⟩ true
        (b ++ ((if quoted = true then [] else [DQUOTE]) ++ escapeDquote c)) := by
  have hqd : DQUOTE ≠ DOT := by decide
  have hqs : DQUOTE ≠ STAR := by decide
  cases quoted with
  | true =>
    by_cases hq : c = DQUOTE
    · subst hq
      simp [appendFieldLoop, Parser.Valid, Parser.Read, escapeDquote, hqd]
    · simp [appendFieldLoop, Parser.Valid, Parser.Read, escapeDquote, hdot, hq]
  | false =>
    have hs : c ≠ STAR := fun e => hstar ⟨e, rfl⟩
    by_cases hq : c = DQUOTE
    · subst hq
      simp [appendFieldLoop, Parser.Valid, Parser.Read, escapeDquote, hqd, hqs]
    · simp [appendFieldLoop, Parser.Valid, Parser.Read, escapeDquote, hdot, hq, hs]

theorem unquoteIdent_quoted_cons (c : Byte) (x : Bytes) (h : c ≠ DQUOTE) :
    unquoteIdent true (c :: x) = (unquoteIdent true x).map (fun y => c :: y) := by
  cases x with
  | nil => simp [unquoteIdent, h]
  | cons d r => simp [unquoteIdent, h]

theorem unquoteIdent_appendFieldLoop (n : Nat) :
    ∀ (p : Bytes) (quoted : Bool), p.length < n →
      unquoteIdent quoted (appendFieldLoop 1 n ⟨p⟩ quoted []) = some p := by
  induction n with
  | zero => intro p quoted h; exact absurd h (Nat.not_lt_zero _)
  | succ n ih =>
    intro p quoted h
    have hdq : DOT ≠ DQUOTE := by decide
    have hsq : STAR ≠ DQUOTE := by decide
    cases p with
    | nil => rw [appendFieldLoop_nil]; cases quoted <;> simp [unquoteIdent]
    | cons c r =>
      have hr : r.length < n := by simpa using h
      by_cases hstar : c = STAR ∧ quoted = false
      · obtain ⟨hc, hq⟩ := hstar
        subst hc; subst hq
        rw [appendFieldLoop_star, appendFieldLoop_buf]
        simp [unquoteIdent, hsq, ih r false hr]
      · by_cases hdot : c = DOT
        · subst hdot
          by_cases hnext : r.head? = some STAR
          · cases r with
            | nil => simp at hnext
            | cons d r2 =>
              have hd : d = STAR := by simpa using hnext
              subst hd
              have hr2 : r2.length < n := by
                simp only [List.length_cons] at hr; omega
              rw [appendFieldLoop_dot_star, appendFieldLoop_buf]
              cases quoted <;> simp [unquoteIdent, hdq, hsq, ih r2 false hr2]
          · rw [appendFieldLoop_dot _ _ _ _ hnext, appendFieldLoop_buf]
            cases quoted <;> simp [unquoteIdent, hdq, ih r true hr]
        · rw [appendFieldLoop_byte _ _ _ _ _ hdot hstar, appendFieldLoop_buf]
          by_cases hq : c = DQUOTE
          · subst hq
            cases quoted <;> simp [unquoteIdent, escapeDquote, ih r true hr]
          · cases quoted <;>
              simp [unquoteIdent, escapeDquote, hq, unquoteIdent_quoted_cons c _ hq, ih r true hr]

theorem unquoteIdent_AppendField (p : Bytes) :
    unquoteIdent false (AppendField [] p 1) = some p := by
  simp only [AppendField, appendField, Parser.NewString]
  exact unquoteIdent_appendFieldLoop _ p false (Nat.lt_succ_self _)

/-- C17: with quote 1 the output of `AppendField` on an empty buffer is read
back to the path by SQL identifier unquoting, which succeeds only when every
quoted run that is opened is closed; hence `AppendField` with quote 1 maps
different paths to different outputs. -/
theorem AppendField_unquote (p q : Bytes) :
    unquoteIdent false (AppendField [] p 1) = some p ∧
    (AppendField [] p 1 = AppendField [] q 1 → p = q) := by
  refine ⟨unquoteIdent_AppendField p, fun h => ?_⟩
  have e1 := unquoteIdent_AppendField p
  have e2 := unquoteIdent_AppendField q
  rw [h, e2] at e1
  exact (Option.some.inj e1).symm

/-- The statement of C17 at the path a.b and itself. -/
theorem AppendField_unquote_witness :
    unquoteIdent false (AppendField [] [97, 46, 98] 1) = some [97, 46, 98] ∧
    ([97, 46, 98] : Bytes) = [97, 46, 98] :=
  ⟨(AppendField_unquote [97, 46, 98] [97, 46, 98]).1,
   (AppendField_unquote [97, 46, 98] [97, 46, 98]).2 rfl⟩

theorem appendFieldLoop_succ (quote : Int) (n : Nat) (p : Parser) (quoted : Bool) (b : Bytes)
    (h : p.b.length < n) :
    appendFieldLoop quote (n + 1) p quoted b = appendFieldLoop quote n p quoted b :=
  appendFieldLoop_bound quote (n + 1) n p quoted b (Nat.lt_succ_of_lt h) h

theorem fieldRun_nil (n : Nat) (quoted : Bool) (b : Bytes) (h : 0 < n) :
    appendFieldLoop 1 n ⟨[]⟩ quoted b = b ++ (if quoted = true then [DQUOTE] else []) := by
  cases n with
  | zero => exact absurd h (Nat.lt_irrefl 0)
  | succ m => exact appendFieldLoop_nil m quoted b

theorem fieldRun_star (n : Nat) (r b : Bytes) (h : (STAR :: r).length < n) :
    appendFieldLoop 1 n ⟨STAR :: r⟩ false b = appendFieldLoop 1 n ⟨r⟩ false (b ++ [STAR]) := by
  cases n with
  | zero => exact absurd h (Nat.not_lt_zero _)
  | succ m =>
    have hr : r.length < m := by simpa using h
    rw [appendFieldLoop_star, appendFieldLoop_succ 1 m ⟨r⟩ _ _ hr]

theorem fieldRun_dot_star (n : Nat) (r b : Bytes) (quoted : Bool)
    (h : (DOT :: STAR :: r).length < n) :
    appendFieldLoop 1 n ⟨DOT :: STAR :: r⟩ quoted b =
      appendFieldLoop 1 n ⟨r⟩ false
        (b ++ ((if quoted = true then [DQUOTE] else []) ++ [DOT, STAR])) := by
  cases n with
  | zero => exact absurd h (Nat.not_lt_zero _)
  | succ m =>
    have hr : r.length < m := by simp only [List.length_cons] at h; omega
    rw [appendFieldLoop_dot_star, appendFieldLoop_succ 1 m ⟨r⟩ _ _ hr]

theorem fieldRun_dot (n : Nat) (r b : Bytes) (quoted : Bool) (hn : r.head? ≠ some STAR)
    (h : (DOT :: r).length < n) :
    appendFieldLoop 1 n ⟨DOT :: r⟩ quoted b =
      appendFieldLoop 1 n ⟨r⟩ true
        (b ++ ((if quoted = true then [DQUOTE] else []) ++ [DOT, DQUOTE])) := by
  cases n with
  | zero => exact absurd h (Nat.not_lt_zero _)
  | succ m =>
    have hr : r.length < m := by simpa using h
    rw [appendFieldLoop_dot m r b quoted hn, appendFieldLoop_succ 1 m ⟨r⟩ _ _ hr]

theorem fieldRun_byte (n : Nat) (c : Byte) (r b : Bytes) (quoted : Bool)
    (hdot : c ≠ DOT) (hstar : ¬ (c = STAR ∧ quoted = false)) (h : (c :: r).length < n) :
    appendFieldLoop 1 n ⟨c :: r⟩ quoted b =
      appendFieldLoop 1 n ⟨r⟩ true
        (b ++ ((if quoted = true then [] else [DQUOTE]) ++ escapeDquote c)) := by
  cases n with
  | zero => exact absurd h (Nat.not_lt_zero _)
  | succ m =>
    have hr : r.length < m := by simpa using h
    rw [appendFieldLoop_byte m c r b quoted hdot hstar, appendFieldLoop_succ 1 m ⟨r⟩ _ _ hr]

theorem fieldRun_quoted_segment (n : Nat) (seg : Bytes) :
    ∀ (rest b : Bytes), DOT ∉ seg → (seg ++ rest).length < n →
      appendFieldLoop 1 n ⟨seg ++ rest⟩ true b =
        appendFieldLoop 1 n ⟨rest⟩ true (b ++ seg.flatMap escapeDquote) := by
  induction seg with
  | nil => intro rest b _ _; simp
  | cons c seg ih =>
    intro rest b hd hl
    have hc : c ≠ DOT := fun e => hd (by simp [e])
    have hseg : DOT ∉ seg := fun e => hd (List.mem_cons_of_mem c e)
    have hl2 : (seg ++ rest).length < n := by
      simp only [List.cons_append, List.length_cons] at hl; omega
    have hl3 : (c :: (seg ++ rest)).length < n := by simpa using hl
    rw [List.cons_append, fieldRun_byte n c (seg ++ rest) b true hc (by simp) hl3,
      ih rest _ hseg hl2]
    simp

theorem fieldRun_tail (n : Nat) (segs : List Bytes) :
    ∀ (quoted : Bool) (b : Bytes),
      (∀ seg ∈ segs, DOT ∉ seg ∧ (seg = [STAR] ∨ STAR ∉ seg)) →
      (segs.flatMap (fun seg => DOT :: seg)).length < n →
      appendFieldLoop 1 n ⟨segs.flatMap (fun seg => DOT :: seg)⟩ quoted b =
        b ++ ((if quoted = true then [DQUOTE] else []) ++
          segs.flatMap (fun seg => DOT :: encodeSegment seg)) := by
  induction segs with
  | nil =>
    intro quoted b _ hl
    simpa using fieldRun_nil n quoted b (by simpa using hl)
  | cons seg segs ih =>
    intro quoted b hs hl
    have hseg := hs seg (List.mem_cons_self seg segs)
    have hrest : ∀ s ∈ segs, DOT ∉ s ∧ (s = [STAR] ∨ STAR ∉ s) :=
      fun s hm => hs s (List.mem_cons_of_mem seg hm)
    simp only [List.flatMap_cons, List.cons_append] at hl ⊢
    have hl1 : (seg ++ segs.flatMap (fun s => DOT :: s)).length < n := by
      simp only [List.length_cons] at hl; omega
    have hl2 : (segs.flatMap (fun s => DOT :: s)).length < n := by
      simp only [List.length_append] at hl1; omega
    by_cases hstar : seg = [STAR]
    · subst hstar
      have hl3 : (DOT :: STAR :: segs.flatMap (fun s => DOT :: s)).length < n := by
        simpa using hl
      rw [List.singleton_append,
        fieldRun_dot_star n (segs.flatMap (fun s => DOT :: s)) b quoted hl3,
        ih false _ hrest hl2]
      simp [encodeSegment]
    · have hfree : STAR ∉ seg := hseg.2.resolve_left hstar
      have hhead : (seg ++ segs.flatMap (fun s => DOT :: s)).head? ≠ some STAR := by
        cases seg with
        | nil =>
          cases segs with
          | nil => simp
          | cons s2 segs2 =>
            simp only [List.nil_append, List.flatMap_cons, List.cons_append, List.head?_cons,
              ne_eq, Option.some.injEq]
            decide
        | cons c seg2 =>
          simp only [List.cons_append, List.head?_cons, ne_eq, Option.some.injEq]
          intro e
          exact hfree (by simp [e])
      rw [fieldRun_dot n _ b quoted hhead hl, fieldRun_quoted_segment n seg _ _ hseg.1 hl1,
        ih true _ hrest hl2]
      simp [encodeSegment, hstar]

theorem fieldRun_segments (n : Nat) (seg : Bytes) (segs : List Bytes)
    (h0 : seg ≠ [])
    (hs : ∀ s ∈ seg :: segs, DOT ∉ s ∧ (s = [STAR] ∨ STAR ∉ s))
    (hl : (seg ++ segs.flatMap (fun s => DOT :: s)).length < n) :
    appendFieldLoop 1 n ⟨seg ++ segs.flatMap (fun s => DOT :: s)⟩ false [] =
      encodeSegment seg ++ segs.flatMap (fun s => DOT :: encodeSegment s) := by
  have hseg := hs seg (List.mem_cons_self seg segs)
  have hrest : ∀ s ∈ segs, DOT ∉ s ∧ (s = [STAR] ∨ STAR ∉ s) :=
    fun s hm => hs s (List.mem_cons_of_mem seg hm)
  have hl2 : (segs.flatMap (fun s => DOT :: s)).length < n := by
    simp only [List.length_append] at hl; omega
  by_cases hstar : seg = [STAR]
  · subst hstar
    have hl3 : (STAR :: segs.flatMap (fun s => DOT :: s)).length < n := by simpa using hl
    rw [List.singleton_append, fieldRun_star n (segs.flatMap (fun s => DOT :: s)) [] hl3,
      fieldRun_tail n segs false _ hrest hl2]
    simp [encodeSegment]
  · have hfree : STAR ∉ seg := hseg.2.resolve_left hstar
    cases seg with
    | nil => exact absurd rfl h0
    | cons c seg2 =>
      have hc : c ≠ DOT := fun e => hseg.1 (by simp [e])
      have hcs : c ≠ STAR := fun e => hfree (by simp [e])
      have hd2 : DOT ∉ seg2 := fun e => hseg.1 (List.mem_cons_of_mem c e)
      have hl1 : (seg2 ++ segs.flatMap (fun s => DOT :: s)).length < n := by
        simp only [List.cons_append, List.length_cons] at hl; omega
      have hl3 : (c :: (seg2 ++ segs.flatMap (fun s => DOT :: s))).length < n := by
        simpa using hl
      rw [List.cons_append,
        fieldRun_byte n c (seg2 ++ segs.flatMap (fun s => DOT :: s)) [] false hc
          (fun e => hcs e.1) hl3,
        fieldRun_quoted_segment n seg2 _ _ hd2 hl1, fieldRun_tail n segs true _ hrest hl2]
      simp [encodeSegment, hstar]

theorem splitDots_spec (p : Bytes) :
    ∃ (seg : Bytes) (segs : List Bytes), splitDots p = seg :: segs ∧
      p = seg ++ segs.flatMap (fun s => DOT :: s) ∧
      ∀ s ∈ seg :: segs, DOT ∉ s := by
  induction p with
  | nil => exact ⟨[], [], rfl, rfl, by simp⟩
  | cons c r ih =>
    obtain ⟨t, ts, hsplit, hr, hfree⟩ := ih
    by_cases hc : c = DOT
    · subst hc
      refine ⟨[], t :: ts, by simp [splitDots, hsplit], by simp [← hr], ?_⟩
      intro s hm
      rcases List.mem_cons.mp hm with h | h
      · subst h; simp
      · exact hfree s h
    · refine ⟨c :: t, ts, by simp [splitDots, hsplit, hc], by simp [← hr], ?_⟩
      intro s hm
      rcases List.mem_cons.mp hm with h | h
      · subst h
        intro e
        rcases List.mem_cons.mp e with e1 | e1
        · exact hc e1.symm
        · exact hfree t (List.mem_cons_self t ts) e1
      · exact hfree s (List.mem_cons_of_mem t h)

theorem joinSegments_cons (seg : Bytes) (segs : List Bytes) :
    joinSegments (seg :: segs) =
      encodeSegment seg ++ segs.flatMap (fun s => DOT :: encodeSegment s) := by
  induction segs generalizing seg with
  | nil => simp [joinSegments]
  | cons s2 segs ih =>
    have h := ih s2
    simp only [joinSegments, List.map_cons, List.intersperse, List.flatten_cons,
      List.flatMap_cons] at h ⊢
    rw [h]
    simp

/-- C15: with quote 1, for a path whose first dot-separated segment is not
empty and whose segments are each exactly a star or free of stars,
`AppendField` on an empty buffer returns the segments joined by dots, a star
segment as the bare star and every other segment (an empty later one
included) between double quotes with each double quote doubled. -/
theorem AppendField_quoted_segments (p : Bytes)
    (hfirst : (splitDots p).head? ≠ some [])
    (hsegs : ∀ seg ∈ splitDots p, seg = [STAR] ∨ STAR ∉ seg) :
    AppendField [] p 1 = joinSegments (splitDots p) := by
  obtain ⟨seg, segs, hsplit, hp, hfree⟩ := splitDots_spec p
  rw [hsplit] at hfirst hsegs
  have h0 : seg ≠ [] := by
    intro e; exact hfirst (by simp [e])
  have hl : (seg ++ segs.flatMap (fun s => DOT :: s)).length < p.length + 1 := by
    rw [← hp]; exact Nat.lt_succ_self _
  have hrun := fieldRun_segments (p.length + 1) seg segs h0
    (fun s hm => ⟨hfree s hm, hsegs s hm⟩) hl
  rw [hsplit, joinSegments_cons, ← hrun]
  simp only [AppendField, appendField, Parser.NewString]
  rw [← hp]

/-- The statement of C15 at the path a"b.*..c (a segment with a double
quote, a star segment, an empty segment and a plain one). -/
theorem AppendField_quoted_segments_witness :
    AppendField [] [97, 34, 98, 46, 42, 46, 46, 99] 1 =
      joinSegments (splitDots [97, 34, 98, 46, 42, 46, 46, 99]) :=
  AppendField_quoted_segments [97, 34, 98, 46, 42, 46, 46, 99] (by decide) (by decide)

end Types
